import Mathlib

/-!
Verification of the dataset-construction and evaluation-metrics pipeline of the
Deep-Learning coursework repository (Week4 stock-movement demo and week3 MNIST
demo).  JavaScript numbers are modelled exactly: finite values are rationals
(`JSNum.num`), with explicit `nan`, `inf` and `ninf` for the IEEE special
values produced by `0/0` and division by zero (rounding of binary floats is
not modelled; all claim-relevant arithmetic is exact).  JavaScript strings are
modelled by `String` with its lexicographic order, and `parseFloat`ed record
fields are taken as already-parsed `JSNum` inputs.
-/

/-- Model of a JavaScript number: a finite rational, or one of the IEEE
special values NaN, Infinity, -Infinity. -/
inductive JSNum where
  | num (q : ℚ)
  | nan
  | inf
  | ninf
deriving DecidableEq, Repr

open JSNum

/-- JavaScript subtraction on numbers (exact on finite values). -/
def jsSub : JSNum → JSNum → JSNum
  | .num a, .num b => .num (a - b)
  | .nan, _ => .nan
  | .num _, .nan => .nan
  | .inf, .nan => .nan
  | .ninf, .nan => .nan
  | .inf, .inf => .nan
  | .inf, .num _ => .inf
  | .inf, .ninf => .inf
  | .ninf, .ninf => .nan
  | .ninf, .num _ => .ninf
  | .ninf, .inf => .ninf
  | .num _, .inf => .ninf
  | .num _, .ninf => .inf

/-- JavaScript division on numbers: `0/0` is NaN, `x/0` is a signed infinity
for finite nonzero `x`, finite/infinite is 0. -/
def jsDiv : JSNum → JSNum → JSNum
  | .num a, .num b =>
      if b = 0 then (if a = 0 then .nan else if 0 < a then .inf else .ninf)
      else .num (a / b)
  | .nan, _ => .nan
  | .num _, .nan => .nan
  | .inf, .nan => .nan
  | .ninf, .nan => .nan
  | .inf, .inf => .nan
  | .inf, .ninf => .nan
  | .ninf, .inf => .nan
  | .ninf, .ninf => .nan
  | .inf, .num b => if b < 0 then .ninf else .inf
  | .ninf, .num b => if b < 0 then .inf else .ninf
  | .num _, .inf => .num 0
  | .num _, .ninf => .num 0

/-- JavaScript strict `>` comparison: any comparison involving NaN is false. -/
def jsGt : JSNum → JSNum → Bool
  | .num a, .num b => decide (b < a)
  | .nan, _ => false
  | .num _, .nan => false
  | .inf, .nan => false
  | .ninf, _ => false
  | .inf, .inf => false
  | .inf, .num _ => true
  | .inf, .ninf => true
  | .num _, .inf => false
  | .num _, .ninf => true

/-- Binary minimum as computed by JavaScript `Math.min`: NaN is absorbing. -/
def jsMin2 : JSNum → JSNum → JSNum
  | .nan, _ => .nan
  | _, .nan => .nan
  | .num a, .num b => .num (min a b)
  | .num a, .inf => .num a
  | .inf, .num b => .num b
  | .inf, .inf => .inf
  | .ninf, _ => .ninf
  | _, .ninf => .ninf

/-- Binary maximum as computed by JavaScript `Math.max`: NaN is absorbing. -/
def jsMax2 : JSNum → JSNum → JSNum
  | .nan, _ => .nan
  | _, .nan => .nan
  | .num a, .num b => .num (max a b)
  | .num a, .ninf => .num a
  | .ninf, .num b => .num b
  | .ninf, .ninf => .ninf
  | .inf, _ => .inf
  | _, .inf => .inf

/-- Model of `Math.min(...values)` (empty call yields Infinity). -/
def jsMinList (l : List JSNum) : JSNum := l.foldr jsMin2 .inf

/-- Model of `Math.max(...values)` (empty call yields -Infinity). -/
def jsMaxList (l : List JSNum) : JSNum := l.foldr jsMax2 .ninf

/-- One parsed row of the Week4 stock CSV after `parseFloat` of its numeric
columns (the model takes the parse results as given inputs). -/
structure StockRow where
  Date : String
  Symbol : String
  Open : JSNum
  Close : JSNum
deriving DecidableEq, Repr

/-- The pair of per-date values kept by the Week4 pivot. -/
structure Bar where
  Open : JSNum
  Close : JSNum
deriving DecidableEq, Repr

/-- Model of the JavaScript idiom spread of `new Set(xs)` into an array:
first occurrence of each element is kept, in encounter order.  The `seen`
accumulator makes the recursion structural. -/
def jsSetDedupAux {α : Type} [DecidableEq α] (seen : List α) : List α → List α
  | [] => []
  | x :: xs =>
      if x ∈ seen then jsSetDedupAux seen xs
      else x :: jsSetDedupAux (x :: seen) xs

/-- First-occurrence deduplication, the meaning of spreading `new Set`. -/
def jsSetDedup {α : Type} [DecidableEq α] (l : List α) : List α :=
  jsSetDedupAux [] l

/-- The relation used to model the default JavaScript string sort
(lexicographic comparison, which is what `String` order gives on these
ASCII date keys). -/
def jsStrLeR : String → String → Prop := fun a b => a ≤ b

instance : DecidableRel jsStrLeR := fun a b =>
  (inferInstance : Decidable (a ≤ b))

instance : IsTotal String jsStrLeR := ⟨fun a b => le_total a b⟩

instance : IsTrans String jsStrLeR := ⟨fun _ _ _ h h2 => le_trans h h2⟩

/-- DataLoader.pivotData, line computing `symbols`: the distinct symbols of
the input rows in first-seen order. -/
def pivotSymbols (data : List StockRow) : List String :=
  jsSetDedup (data.map (fun r => r.Symbol))

/-- DataLoader.pivotData, line computing `dates`: the distinct dates of the
input rows, sorted ascending (JavaScript default sort on strings). -/
def pivotDates (data : List StockRow) : List String :=
  List.insertionSort jsStrLeR (jsSetDedup (data.map (fun r => r.Date)))

/-- DataLoader.pivotData: for each symbol, for each date, look up the first
record with that date and symbol; when found, store its Open/Close pair under
that date.  The inner per-symbol object is modelled as an association list in
insertion order. -/
def pivotData (data : List StockRow) :
    List (String × List (String × Bar)) :=
  (pivotSymbols data).map (fun s =>
    (s, (pivotDates data).filterMap (fun d =>
      (data.find? (fun r => r.Date == d && r.Symbol == s)).map
        (fun r => (d, ⟨r.Open, r.Close⟩)))))

/-- The min-max scaling formula `(v - min) / (max - min)` of
DataLoader.normalizeData, with JavaScript arithmetic. -/
def minMaxNormalize (mn mx v : JSNum) : JSNum := jsDiv (jsSub v mn) (jsSub mx mn)

/-- DataLoader.normalizeData: per symbol, compute min/max of Opens and Closes
over that symbol's values, then rescale every entry; the source has no
`max == min` guard. -/
def normalizeData (pivoted : List (String × List (String × Bar))) :
    List (String × List (String × Bar)) :=
  pivoted.map (fun e =>
    let values := e.2.map (fun de => de.2)
    let oMin := jsMinList (values.map (fun b => b.Open))
    let oMax := jsMaxList (values.map (fun b => b.Open))
    let cMin := jsMinList (values.map (fun b => b.Close))
    let cMax := jsMaxList (values.map (fun b => b.Close))
    (e.1, e.2.map (fun de =>
      (de.1, ⟨minMaxNormalize oMin oMax de.2.Open,
              minMaxNormalize cMin cMax de.2.Close⟩))))

/-- Property lookup on an object modelled as an association list (first
binding wins; all objects built by the pipeline have distinct keys). -/
def alookup {α : Type} (m : List (String × α)) (k : String) : Option α :=
  (m.find? (fun e => e.1 == k)).map (fun e => e.2)

/-- The two-level lookup `normalizedData[symbol] && normalizedData[symbol][date]`. -/
def lookup2 (nd : List (String × List (String × Bar))) (s d : String) :
    Option Bar :=
  match alookup nd s with
  | some row => alookup row d
  | none => none

/-- JavaScript `Array.prototype.slice(0, e)` with a possibly negative end
index: a negative end counts from the end of the array. -/
def jsSliceTo {α : Type} (l : List α) (e : ℤ) : List α :=
  l.take (if e < 0 then ((l.length : ℤ) + e).toNat else e.toNat)

/-- JavaScript `Array.prototype.indexOf`: first index, or -1 if absent. -/
def jsIndexOf (l : List String) (x : String) : ℤ :=
  if x ∈ l then (l.indexOf x : ℤ) else -1

/-- The `currentClosePrices[symbol]` value of DataLoader.prepareSamples: the
symbol's normalized Close at the anchor date, or 0 when the symbol has no
entry at that date.  The source memoizes these per symbol in an object keyed
by the same symbols list, which is equivalent to this direct lookup. -/
def currentCloseOf (nd : List (String × List (String × Bar)))
    (currentDate s : String) : JSNum :=
  match lookup2 nd s currentDate with
  | some bar => bar.Close
  | none => num 0

/-- The label comparison `futureClose > currentClosePrices[symbol] ? 1 : 0`. -/
def labelBit (future current : JSNum) : ℕ := if jsGt future current then 1 else 0

/-- One input window of DataLoader.prepareSamples: for each of the T dates
before the anchor, the concatenation over symbols of [Open, Close], with 0,0
for a symbol missing at that date. -/
def sampleInput (nd : List (String × List (String × Bar)))
    (symbols featureDates : List String) (i T : ℕ) : List (List JSNum) :=
  (List.range' (i - T) T).map (fun j =>
    let date := featureDates.getD j ""
    symbols.flatMap (fun s =>
      match lookup2 nd s date with
      | some bar => [bar.Open, bar.Close]
      | none => [num 0, num 0]))

/-- One target vector of DataLoader.prepareSamples: for each horizon offset
1..H, if the future date index is within the dates array, for each symbol the
label bit (0 when the symbol is missing at the future date); otherwise a
padding block of zeros. -/
def targetVector (nd : List (String × List (String × Bar)))
    (symbols dates : List String) (currentDate : String) (H : ℕ) : List ℕ :=
  (List.range' 1 H).flatMap (fun offset =>
    let fdi : ℤ := jsIndexOf dates currentDate + offset
    if fdi < (dates.length : ℤ) then
      let futureDate := dates.getD fdi.toNat ""
      symbols.map (fun s =>
        match lookup2 nd s futureDate with
        | some bar => labelBit bar.Close (currentCloseOf nd currentDate s)
        | none => 0)
    else symbols.map (fun _ => 0))

/-- DataLoader.prepareSamples: windows are anchored at indices
`sequenceLength ≤ i < featureDates.length` where `featureDates` is
`dates.slice(0, dates.length - predictionDays)`; the source fills `samples`
and `targets` in one loop, modelled as two maps over the same index list. -/
def prepareSamples (nd : List (String × List (String × Bar)))
    (symbols dates : List String) (sequenceLength predictionDays : ℕ) :
    List (List (List JSNum)) × List (List ℕ) :=
  let featureDates := jsSliceTo dates ((dates.length : ℤ) - predictionDays)
  let idxs := List.range' sequenceLength (featureDates.length - sequenceLength)
  (idxs.map (fun i => sampleInput nd symbols featureDates i sequenceLength),
   idxs.map (fun i =>
     targetVector nd symbols dates (featureDates.getD i "") predictionDays))

/-- DataLoader.splitData: contiguous split at `Math.floor(N * splitRatio)`;
the tensor packaging of the source is outside the model. -/
def splitData {α β : Type} (samples : List α) (targets : List β)
    (splitRatio : ℚ) : List α × List β × List α × List β :=
  let splitIndex := (Int.floor ((samples.length : ℚ) * splitRatio)).toNat
  (samples.take splitIndex, targets.take splitIndex,
   samples.drop splitIndex, targets.drop splitIndex)

/-- MNISTDataLoader.splitTrainVal: `numVal = Math.floor(N * valRatio)` rows
are taken from the end as validation, the first `N - numVal` rows are the
training slice (tensor `slice(begin, size)` is modelled by drop/take). -/
def splitTrainVal {α β : Type} (xs : List α) (ys : List β) (valRatio : ℚ) :
    List α × List β × List α × List β :=
  let numVal := (Int.floor ((xs.length : ℚ) * valRatio)).toNat
  let numTrain := xs.length - numVal
  (xs.take numTrain, ys.take numTrain,
   (xs.drop numTrain).take numVal, (ys.drop numTrain).take numVal)

/-- The thresholding `predData[sample][outputIndex] > 0.5 ? 1 : 0` of
GRUModel.calculatePerStockAccuracy; an out-of-range read (undefined) compares
false and yields 0, as in JavaScript. -/
def predBit (p : Option ℚ) : ℚ :=
  match p with
  | some v => if 1/2 < v then 1 else 0
  | none => 0

/-- Read `dataRows[sample][idx]`, with undefined for out-of-range. -/
def entryAt (dataRows : List (List ℚ)) (sample idx : ℕ) : Option ℚ :=
  (dataRows.get? sample).bind (fun row => row.get? idx)

/-- The comparison `trueVal === predVal` of one (sample, day) cell; an
undefined true value is not `===` to any number. -/
def cellMatch (trueData predData : List (List ℚ)) (S sIdx sample day : ℕ) :
    Bool :=
  match entryAt trueData sample (day * S + sIdx) with
  | some tv => decide (tv = predBit (entryAt predData sample (day * S + sIdx)))
  | none => false

/-- The `correct` counter of GRUModel.calculatePerStockAccuracy for one
symbol index: matches accumulated over all samples and all horizons. -/
def stockCorrect (trueData predData : List (List ℚ)) (S sIdx daysAhead : ℕ) :
    ℕ :=
  ((List.range trueData.length).map (fun sample =>
    (List.range daysAhead).countP (fun day =>
      cellMatch trueData predData S sIdx sample day))).sum

/-- GRUModel.calculatePerStockAccuracy: per symbol, `correct / total` with
`total = samples * daysAhead`, in JavaScript arithmetic (so 0/0 is NaN). -/
def calculatePerStockAccuracy (trueData predData : List (List ℚ))
    (symbols : List String) (daysAhead : ℕ) : List (String × JSNum) :=
  symbols.enum.map (fun e =>
    (e.2, jsDiv (num (stockCorrect trueData predData symbols.length e.1 daysAhead))
                (num ((trueData.length * daysAhead : ℕ) : ℚ))))

/-- Increment `row[p]` (the row is always long enough in the pipeline). -/
def listInc : List ℕ → ℕ → List ℕ
  | [], _ => []
  | x :: xs, 0 => (x + 1) :: xs
  | x :: xs, n + 1 => x :: listInc xs n

/-- Increment `matrix[t][p]`, the update `matrix[trueVal][pred]++`. -/
def cmBump : List (List ℕ) → ℕ → ℕ → List (List ℕ)
  | [], _, _ => []
  | r :: rs, 0, p => listInc r p :: rs
  | r :: rs, t + 1, p => r :: cmBump rs t p

/-- MNISTApp.createConfusionMatrix: start from a 10x10 zero matrix and
increment `matrix[trueArray[i]][predArray[i]]` for each example. -/
def createConfusionMatrix (predArray trueArray : List ℕ) : List (List ℕ) :=
  (predArray.zip trueArray).foldl
    (fun m pt => cmBump m pt.2 pt.1)
    (List.replicate 10 (List.replicate 10 0))

/-- Character-level model of `s.split(sep)` for a single-character
separator (empty pieces between adjacent separators are kept, as in
JavaScript). -/
def splitCharsAux (sep : Char) : List Char → List Char → List (List Char)
  | [], acc => [acc.reverse]
  | c :: cs, acc =>
      if c = sep then acc.reverse :: splitCharsAux sep cs []
      else splitCharsAux sep cs (c :: acc)

/-- JavaScript `String.prototype.split` with a one-character separator. -/
def jsSplit (s : String) (sep : Char) : List String :=
  (splitCharsAux sep s.data []).map String.mk

/-- A line is blank when `line.trim()` is empty, i.e. every character is
whitespace. -/
def isBlankLine (s : String) : Bool := s.data.all (fun c => c.isWhitespace)

/-- The non-blank lines of the file content, as in
`content.split('\n').filter(line => line.trim() !== '')`. -/
def csvLines (content : String) : List String :=
  (jsSplit content '\n').filter (fun l => !(isBlankLine l))

/-- The keep test of MNISTDataLoader.loadCSVFile: exactly 785 comma-separated
fields. -/
def keepRow (line : String) : Bool := (jsSplit line ',').length == 785

/-- MNISTDataLoader.loadCSVFile: keep the lines with exactly 785 fields as
(label, pixels) records in order; reject with the source's error message when
none remain.  Numeric conversion of the kept fields (`map(Number)`, which
never changes the field count) is outside the model. -/
def loadCSVFile (content : String) :
    Except String (List (String × List String)) :=
  let lines := csvLines content
  let records := lines.filterMap (fun line =>
    let values := jsSplit line ','
    if values.length = 785 then some (values.headD "", values.drop 1)
    else none)
  if records.length = 0 then Except.error "No valid data found in file"
  else Except.ok records

/-- Formalization of the claim's notion of a well-formed digit-data row
(claim side, for comparison with the source's keep test): exactly 1 + 784
fields, each of which is a numeric literal.  Numeric literals are
conservatively modelled as nonempty digit strings; the refuting row below is
non-numeric under any reading of JavaScript number syntax. -/
def isNumericField (s : String) : Bool :=
  (!(s.data.isEmpty)) && s.data.all (fun c => c.isDigit)

/-- Claim-side well-formedness of one CSV row. -/
def specWellFormedRow (line : String) : Bool :=
  ((jsSplit line ',').length == 785) && (jsSplit line ',').all isNumericField

/-- The per-position label policy that DataLoader.prepareSamples actually
implements at an in-range future index: 0 when the symbol is missing at the
future date, otherwise the comparison of the future normalized Close against
the anchor's normalized Close with a missing anchor treated as 0. -/
def labelAt (nd : List (String × List (String × Bar)))
    (s anchorDate futureDate : String) : ℕ :=
  match lookup2 nd s futureDate with
  | some bar => labelBit bar.Close (currentCloseOf nd anchorDate s)
  | none => 0

/-- Join character-level fields with a separator (used to build concrete CSV
rows whose splitting behavior is then derived by lemma rather than by brute
evaluation). -/
def joinChars (sep : Char) : List (List Char) → List Char
  | [] => []
  | [p] => p
  | p :: ps => p ++ sep :: joinChars sep ps

/-! ## Shared lemmas -/

theorem jsSliceTo_length_of_le {α : Type} (l : List α) (H : ℕ)
    (hH : H ≤ l.length) :
    (jsSliceTo l ((l.length : ℤ) - H)).length = l.length - H := by
  unfold jsSliceTo
  rw [if_neg (by omega)]
  simp only [List.length_take]
  omega

theorem prepareSamples_lengths (nd : List (String × List (String × Bar)))
    (symbols dates : List String) (T H : ℕ) :
    (prepareSamples nd symbols dates T H).1.length
        = (jsSliceTo dates ((dates.length : ℤ) - H)).length - T ∧
    (prepareSamples nd symbols dates T H).2.length
        = (jsSliceTo dates ((dates.length : ℤ) - H)).length - T := by
  unfold prepareSamples
  simp [List.length_range']

theorem floor_mul_toNat_le (N : ℕ) (r : ℚ) (hr1 : r ≤ 1) :
    (Int.floor ((N : ℚ) * r)).toNat ≤ N := by
  have h1 : ((N : ℚ) * r) ≤ ((N : ℤ) : ℚ) := by
    push_cast
    nlinarith [Nat.cast_nonneg (α := ℚ) N]
  have h2 : Int.floor ((N : ℚ) * r) ≤ (N : ℤ) := by
    have := Int.floor_mono h1
    simpa using this
  omega

/-! ## Claim theorems -/

unseal Rat.add Rat.sub Rat.mul Rat.inv in
/-- C2 (code_bug evaluation): for an entity whose Close (and Open) values are
all equal, DataLoader.normalizeData produces NaN (0/0), not the 0 promised by
the spec: the source has no `max == min` guard. -/
theorem normalizeData_constant_field_nan :
    normalizeData (pivotData [⟨"d", "A", num 5, num 5⟩]) =
      [("A", [("d", ⟨JSNum.nan, JSNum.nan⟩)])] := by decide

/-- C3 (counterexample): with D = 2 dates, T = 1, H = 1 (so D - T - H = 0),
DataLoader.prepareSamples returns the empty samples/targets pair; no
InsufficientDataError exists anywhere in the source, so the builder returns
an empty dataset rather than failing. -/
theorem prepareSamples_returns_empty_not_error :
    prepareSamples [] ["A"] ["a", "b"] 1 1 = ([], []) := by decide

/-- C3 (amended): whenever H ≤ D and D - H ≤ T (in particular whenever
D - T - H ≤ 0 with H ≤ D), DataLoader.prepareSamples returns the empty
samples and targets lists; it raises no error of any kind. -/
theorem prepareSamples_insufficient_empty
    (nd : List (String × List (String × Bar))) (symbols dates : List String)
    (T H : ℕ) (hH : H ≤ dates.length) (hT : dates.length - H ≤ T) :
    prepareSamples nd symbols dates T H = ([], []) := by
  have hlen := jsSliceTo_length_of_le dates H hH
  have h0 : dates.length - H - T = 0 := by omega
  simp [prepareSamples, hlen, h0]

theorem prepareSamples_insufficient_empty_witness :
    (1 ≤ 3 ∧ 3 - 1 ≤ 2) ∧
      prepareSamples [] ["A"] ["a", "b", "c"] 2 1 = ([], []) :=
  ⟨by decide,
   prepareSamples_insufficient_empty [] ["A"] ["a", "b", "c"] 2 1
     (by decide) (by decide)⟩

/-- C4 (counterexample): for D = 3 dates, T = 1, H = 4 we have
D - T - H = -2 ≤ 0, yet the builder produces 1 sample, because the JavaScript
slice end `dates.length - predictionDays` is negative and wraps around. -/
theorem prepareSamples_count_slice_wrap :
    (prepareSamples [] ["A"] ["a", "b", "c"] 1 4).1.length = 1 ∧
      (3 : ℤ) - 1 - 4 < 0 := by
  constructor
  · decide
  · decide

/-- C4 (amended): whenever H ≤ D, DataLoader.prepareSamples produces exactly
max(0, D - T - H) (Sample, Target) pairs (natural subtraction truncates at
0); in particular D = 20, T = 12, H = 3 gives 5 samples.  For H > D the
negative slice end wraps and the count is max(0, max(0, 2D - H) - T)
instead, which the counterexample shows can be positive. -/
theorem prepareSamples_count (nd : List (String × List (String × Bar)))
    (symbols dates : List String) (T H : ℕ) (hH : H ≤ dates.length) :
    (prepareSamples nd symbols dates T H).1.length = dates.length - T - H ∧
    (prepareSamples nd symbols dates T H).2.length = dates.length - T - H := by
  have h := prepareSamples_lengths nd symbols dates T H
  have hlen := jsSliceTo_length_of_le dates H hH
  constructor
  · rw [h.1, hlen]; omega
  · rw [h.2, hlen]; omega

theorem prepareSamples_count_witness :
    (prepareSamples [] ["A"]
        ["d01", "d02", "d03", "d04", "d05", "d06", "d07", "d08", "d09", "d10",
         "d11", "d12", "d13", "d14", "d15", "d16", "d17", "d18", "d19", "d20"]
        12 3).1.length = 5 :=
  (prepareSamples_count [] ["A"] _ 12 3 (by decide)).1

/-- C6 (counterexample): with zero test examples (an empty prediction array
of flat vectors, matching empty targets), the per-entity accuracy of
GRUModel.calculatePerStockAccuracy is NaN (0/0), which does not lie in
[0, 1]. -/
theorem perStockAccuracy_empty_nan :
    calculatePerStockAccuracy [] [] ["A"] 3 = [("A", JSNum.nan)] := by decide

unseal Rat.add Rat.sub Rat.mul Rat.inv in
/-- C8 (counterexample): MNISTDataLoader.splitTrainVal on 7 samples with
fraction 1/10 keeps all 7 as the training slice, which is neither
floor(7 * (1/10)) = 0 (the fraction as passed) nor floor(7 * (9/10)) = 6
(the complementary training fraction), so the first-floor(N*r) contract of
the claim fails for the week3 splitter. -/
theorem splitTrainVal_not_floor_rule :
    (splitTrainVal (List.range 7) (List.range 7) (1/10)).1.length = 7 ∧
      (Int.floor ((7 : ℚ) * (1/10))).toNat = 0 ∧
      (Int.floor ((7 : ℚ) * (9/10))).toNat = 6 := by
  refine ⟨by decide, by decide, by decide⟩

/-- C8 (amended): for every split fraction r in (0,1): Week4's
DataLoader.splitData returns exactly the first floor(N*r) pairs as train and
the remainder as test, preserving order (train ++ test is the original
sequence, for samples and targets alike); week3's
MNISTDataLoader.splitTrainVal returns the first N - floor(N*valRatio) rows
as train and the remaining floor(N*valRatio) rows as validation, likewise
contiguously and in order. -/
theorem split_contract {α β : Type} (samples : List α) (targets : List β)
    (xs : List α) (ys : List β) (r : ℚ) (_hr0 : 0 < r) (hr1 : r < 1) :
    (splitData samples targets r).1 ++ (splitData samples targets r).2.2.1
        = samples ∧
    (splitData samples targets r).2.1 ++ (splitData samples targets r).2.2.2
        = targets ∧
    (splitData samples targets r).1.length
        = (Int.floor ((samples.length : ℚ) * r)).toNat ∧
    (splitTrainVal xs ys r).1 ++ (splitTrainVal xs ys r).2.2.1 = xs ∧
    (splitTrainVal xs ys r).1.length
        = xs.length - (Int.floor ((xs.length : ℚ) * r)).toNat := by
  have hk : (Int.floor ((samples.length : ℚ) * r)).toNat ≤ samples.length :=
    floor_mul_toNat_le _ r (le_of_lt hr1)
  have hkx : (Int.floor ((xs.length : ℚ) * r)).toNat ≤ xs.length :=
    floor_mul_toNat_le _ r (le_of_lt hr1)
  simp only [splitData, splitTrainVal]
  refine ⟨List.take_append_drop _ _, List.take_append_drop _ _, ?_, ?_, ?_⟩
  · simp only [List.length_take]
    omega
  · rw [List.take_of_length_le
      (l := xs.drop (xs.length - (Int.floor ((xs.length : ℚ) * r)).toNat))
      (by simp only [List.length_drop]; omega)]
    exact List.take_append_drop _ _
  · simp only [List.length_take]
    omega

unseal Rat.add Rat.sub Rat.mul Rat.inv in
theorem split_contract_witness :
    (splitData [0, 1, 2, 3] [4, 5, 6, 7] (1/2)).1 ++
        (splitData [0, 1, 2, 3] [4, 5, 6, 7] (1/2)).2.2.1 = [0, 1, 2, 3] ∧
    (splitData [0, 1, 2, 3] [4, 5, 6, 7] (1/2)).2.1 ++
        (splitData [0, 1, 2, 3] [4, 5, 6, 7] (1/2)).2.2.2 = [4, 5, 6, 7] ∧
    (splitData [0, 1, 2, 3] [4, 5, 6, 7] (1/2)).1.length
        = (Int.floor ((4 : ℚ) * (1/2))).toNat ∧
    (splitTrainVal [0, 1, 2] [3, 4, 5] (1/2)).1 ++
        (splitTrainVal [0, 1, 2] [3, 4, 5] (1/2)).2.2.1 = [0, 1, 2] ∧
    (splitTrainVal [0, 1, 2] [3, 4, 5] (1/2)).1.length
        = 3 - (Int.floor ((3 : ℚ) * (1/2))).toNat := by
  have h := split_contract [0, 1, 2, 3] [4, 5, 6, 7] [0, 1, 2] [3, 4, 5]
    (1/2) (by decide) (by decide)
  simpa using h

theorem jsDiv_num_num_of_ne (a b : ℚ) (hb : b ≠ 0) :
    jsDiv (num a) (num b) = num (a / b) := by
  simp [jsDiv, hb]

theorem stockCorrect_le (trueData predData : List (List ℚ)) (S sIdx d : ℕ) :
    stockCorrect trueData predData S sIdx d ≤ trueData.length * d := by
  unfold stockCorrect
  have hb : ∀ x ∈ (List.range trueData.length).map (fun sample =>
      (List.range d).countP (fun day =>
        cellMatch trueData predData S sIdx sample day)), x ≤ d := by
    intro x hx
    simp only [List.mem_map] at hx
    obtain ⟨s, _, rfl⟩ := hx
    calc (List.range d).countP _ ≤ (List.range d).length :=
          List.countP_le_length _
      _ = d := List.length_range d
  have h := List.sum_le_card_nsmul _ d hb
  simpa [smul_eq_mul] using h

/-- C6 (amended): provided there is at least one example and at least one
horizon, every per-entity accuracy reported by
GRUModel.calculatePerStockAccuracy is a finite rational in [0, 1]; the
threshold is strict at 0.5: a predicted value of exactly 0.5 is classified
as 0, and any value above 0.5 as 1.  (With zero examples the ratio is NaN,
see the counterexample.) -/
theorem perStockAccuracy_bounds (trueData predData : List (List ℚ))
    (symbols : List String) (daysAhead : ℕ)
    (hN : 0 < trueData.length) (hd : 0 < daysAhead) :
    (∀ p ∈ calculatePerStockAccuracy trueData predData symbols daysAhead,
        ∃ q : ℚ, p.2 = num q ∧ 0 ≤ q ∧ q ≤ 1) ∧
    predBit (some (1/2)) = 0 ∧
    (∀ v : ℚ, 1/2 < v → predBit (some v) = 1) ∧
    (∀ v : ℚ, v ≤ 1/2 → predBit (some v) = 0) := by
  refine ⟨?_, ?_, ?_, ?_⟩
  · intro p hp
    simp only [calculatePerStockAccuracy, List.mem_map] at hp
    obtain ⟨e, _, rfl⟩ := hp
    have hcle : stockCorrect trueData predData symbols.length e.1 daysAhead
        ≤ trueData.length * daysAhead := stockCorrect_le _ _ _ _ _
    have htotpos : 0 < trueData.length * daysAhead := by positivity
    have htot : ((trueData.length * daysAhead : ℕ) : ℚ) ≠ 0 := by
      exact_mod_cast Nat.pos_iff_ne_zero.mp htotpos
    refine ⟨(stockCorrect trueData predData symbols.length e.1 daysAhead : ℚ)
        / ((trueData.length * daysAhead : ℕ) : ℚ), ?_, ?_, ?_⟩
    · exact jsDiv_num_num_of_ne _ _ htot
    · positivity
    · rw [div_le_one (by exact_mod_cast htotpos)]
      exact_mod_cast hcle
  · simp only [predBit]
    rw [if_neg (lt_irrefl _)]
  · intro v hv
    simp only [predBit]
    rw [if_pos hv]
  · intro v hv
    simp only [predBit]
    rw [if_neg (not_lt.mpr hv)]

theorem perStockAccuracy_bounds_witness :
    (∀ p ∈ calculatePerStockAccuracy [[1, 1, 1]] [[1, 1, 1]] ["A"] 3,
        ∃ q : ℚ, p.2 = num q ∧ 0 ≤ q ∧ q ≤ 1) ∧
    predBit (some (1/2)) = 0 ∧
    (∀ v : ℚ, 1/2 < v → predBit (some v) = 1) ∧
    (∀ v : ℚ, v ≤ 1/2 → predBit (some v) = 0) :=
  perStockAccuracy_bounds [[1, 1, 1]] [[1, 1, 1]] ["A"] 3
    (by decide) (by decide)

theorem listInc_length (row : List ℕ) (p : ℕ) :
    (listInc row p).length = row.length := by
  induction row generalizing p with
  | nil => rfl
  | cons x xs ih => cases p <;> simp [listInc, ih]

theorem listInc_sum (row : List ℕ) (p : ℕ) :
    (listInc row p).sum = row.sum + (if p < row.length then 1 else 0) := by
  induction row generalizing p with
  | nil => simp [listInc]
  | cons x xs ih =>
      cases p with
      | zero => simp [listInc]; omega
      | succ n =>
          simp only [listInc, List.sum_cons, ih, List.length_cons]
          by_cases h : n < xs.length
          · rw [if_pos h, if_pos (by omega)]
            omega
          · rw [if_neg h, if_neg (by omega)]
            omega

theorem cmBump_getD (m : List (List ℕ)) (t p i : ℕ) :
    (cmBump m t p).getD i []
      = if i = t then listInc (m.getD t []) p else m.getD i [] := by
  induction m generalizing t i with
  | nil =>
      simp only [cmBump]
      split <;> simp [listInc]
  | cons r rs ih =>
      cases t with
      | zero =>
          cases i with
          | zero => simp [cmBump]
          | succ j => simp [cmBump]
      | succ u =>
          cases i with
          | zero => simp [cmBump]
          | succ j => simpa [cmBump] using ih u j

theorem cmBump_length (m : List (List ℕ)) (t p : ℕ) :
    (cmBump m t p).length = m.length := by
  induction m generalizing t with
  | nil => rfl
  | cons r rs ih => cases t <;> simp [cmBump, ih]

theorem cmBump_row_lengths (m : List (List ℕ)) (t p : ℕ)
    (h : ∀ row ∈ m, row.length = 10) :
    ∀ row ∈ cmBump m t p, row.length = 10 := by
  induction m generalizing t with
  | nil => simp [cmBump]
  | cons r rs ih =>
      cases t with
      | zero =>
          intro row hrow
          rcases List.mem_cons.mp hrow with h1 | h2
          · rw [h1, listInc_length]
            exact h r (by simp)
          · exact h row (by simp [h2])
      | succ u =>
          intro row hrow
          rcases List.mem_cons.mp hrow with h1 | h2
          · exact h row (by simp [h1])
          · exact ih u (fun rr hrr => h rr (by simp [hrr])) row h2

theorem cmBump_total (m : List (List ℕ)) (t p : ℕ)
    (ht : t < m.length) (hp : p < (m.getD t []).length) :
    ((cmBump m t p).map List.sum).sum = (m.map List.sum).sum + 1 := by
  induction m generalizing t with
  | nil => simp at ht
  | cons r rs ih =>
      cases t with
      | zero =>
          simp only [cmBump, List.map_cons, List.sum_cons, listInc_sum]
          simp only [List.getD_cons_zero] at hp
          rw [if_pos hp]
          omega
      | succ u =>
          simp only [cmBump, List.map_cons, List.sum_cons]
          rw [ih u (by simpa using ht) (by simpa using hp)]
          omega

theorem cmFold_rowSum (l : List (ℕ × ℕ)) (m : List (List ℕ)) (i : ℕ)
    (hml : m.length = 10) (hrow : ∀ row ∈ m, row.length = 10)
    (hl : ∀ pt ∈ l, pt.1 < 10 ∧ pt.2 < 10) :
    ((l.foldl (fun mm pt => cmBump mm pt.2 pt.1) m).getD i []).sum
      = (m.getD i []).sum + l.countP (fun pt => pt.2 == i) := by
  induction l generalizing m with
  | nil => simp
  | cons pt rest ih =>
      have hpt := hl pt (by simp)
      have hml2 : (cmBump m pt.2 pt.1).length = 10 := by
        rw [cmBump_length]; exact hml
      have hrow2 := cmBump_row_lengths m pt.2 pt.1 hrow
      rw [List.foldl_cons,
        ih (cmBump m pt.2 pt.1) hml2 hrow2 (fun q hq => hl q (by simp [hq])),
        cmBump_getD, List.countP_cons]
      by_cases hit : i = pt.2
      · rw [if_pos hit]
        have hmem : m.getD pt.2 [] ∈ m := by
          have : pt.2 < m.length := by omega
          rw [List.getD_eq_getElem?_getD, List.getElem?_eq_getElem this]
          exact List.getElem_mem this
        have hlen10 : (m.getD pt.2 []).length = 10 := hrow _ hmem
        rw [listInc_sum, hlen10, if_pos hpt.1]
        have : (pt.2 == i) = true := by simp [hit]
        rw [this, hit]
        simp
        omega
      · rw [if_neg hit]
        have : (pt.2 == i) = false := by
          simp [Ne.symm hit]
        rw [this]
        simp

theorem cmFold_total (l : List (ℕ × ℕ)) (m : List (List ℕ))
    (hml : m.length = 10) (hrow : ∀ row ∈ m, row.length = 10)
    (hl : ∀ pt ∈ l, pt.1 < 10 ∧ pt.2 < 10) :
    ((l.foldl (fun mm pt => cmBump mm pt.2 pt.1) m).map List.sum).sum
      = (m.map List.sum).sum + l.length := by
  induction l generalizing m with
  | nil => simp
  | cons pt rest ih =>
      have hpt := hl pt (by simp)
      have hml2 : (cmBump m pt.2 pt.1).length = 10 := by
        rw [cmBump_length]; exact hml
      have hrow2 := cmBump_row_lengths m pt.2 pt.1 hrow
      have hmem : m.getD pt.2 [] ∈ m := by
        have : pt.2 < m.length := by omega
        rw [List.getD_eq_getElem?_getD, List.getElem?_eq_getElem this]
        exact List.getElem_mem this
      rw [List.foldl_cons,
        ih (cmBump m pt.2 pt.1) hml2 hrow2 (fun q hq => hl q (by simp [hq])),
        cmBump_total m pt.2 pt.1 (by omega) (by rw [hrow _ hmem]; omega)]
      simp
      omega

/-- C7 (confirmed): for aligned prediction/label lists with classes in
[0, 10), every row i of MNISTApp.createConfusionMatrix sums to the number of
examples whose true class is i, and the total of all entries is the number
of examples. -/
theorem confusionMatrix_row_sums (predArray trueArray : List ℕ)
    (hlen : predArray.length = trueArray.length)
    (hp : ∀ x ∈ predArray, x < 10) (ht : ∀ x ∈ trueArray, x < 10) :
    (∀ i, ((createConfusionMatrix predArray trueArray).getD i []).sum
        = trueArray.count i) ∧
    ((createConfusionMatrix predArray trueArray).map List.sum).sum
        = trueArray.length := by
  have hzl : (List.replicate 10 (List.replicate 10 (0 : ℕ))).length = 10 := by
    simp
  have hzr : ∀ row ∈ List.replicate 10 (List.replicate 10 (0 : ℕ)),
      row.length = 10 := by
    intro row hrow
    rw [List.eq_of_mem_replicate hrow]
    simp
  have hlp : ∀ pt ∈ predArray.zip trueArray, pt.1 < 10 ∧ pt.2 < 10 := by
    intro pt hpt
    exact ⟨hp _ (List.of_mem_zip hpt).1, ht _ (List.of_mem_zip hpt).2⟩
  have hzero : ∀ i, ((List.replicate 10 (List.replicate 10 (0 : ℕ))).getD i
      []).sum = 0 := by
    intro i
    rcases Nat.lt_or_ge i 10 with h | h
    · rw [List.getD_eq_getElem?_getD, List.getElem?_replicate, if_pos h]
      simp
    · rw [List.getD_eq_getElem?_getD, List.getElem?_replicate, if_neg (by omega)]
      simp
  constructor
  · intro i
    unfold createConfusionMatrix
    rw [cmFold_rowSum _ _ i hzl hzr hlp, hzero, Nat.zero_add]
    have hsnd : (predArray.zip trueArray).map Prod.snd = trueArray :=
      List.map_snd_zip _ _ (le_of_eq hlen.symm)
    calc (predArray.zip trueArray).countP (fun pt => pt.2 == i)
        = ((predArray.zip trueArray).map Prod.snd).countP (fun x => x == i) := by
          rw [List.countP_map]
          rfl
      _ = trueArray.count i := by rw [hsnd, List.count]
  · unfold createConfusionMatrix
    rw [cmFold_total _ _ hzl hzr hlp]
    rw [List.length_zip, hlen]
    simp

theorem confusionMatrix_row_sums_witness :
    (∀ i, ((createConfusionMatrix [3, 7, 3] [3, 7, 4]).getD i []).sum
        = [3, 7, 4].count i) ∧
    ((createConfusionMatrix [3, 7, 3] [3, 7, 4]).map List.sum).sum
        = [3, 7, 4].length :=
  confusionMatrix_row_sums [3, 7, 3] [3, 7, 4] (by decide)
    (by decide) (by decide)

theorem jsSetDedupAux_mem {α : Type} [DecidableEq α] (seen l : List α)
    (a : α) : a ∈ jsSetDedupAux seen l ↔ a ∈ l ∧ a ∉ seen := by
  induction l generalizing seen with
  | nil => simp [jsSetDedupAux]
  | cons x xs ih =>
      by_cases hx : x ∈ seen
      · simp only [jsSetDedupAux, if_pos hx, ih, List.mem_cons]
        constructor
        · rintro ⟨h1, h2⟩
          exact ⟨Or.inr h1, h2⟩
        · rintro ⟨h1 | h1, h2⟩
          · exact absurd (h1 ▸ hx) h2
          · exact ⟨h1, h2⟩
      · simp only [jsSetDedupAux, if_neg hx, List.mem_cons, ih]
        constructor
        · rintro (rfl | ⟨h1, h2⟩)
          · exact ⟨Or.inl rfl, hx⟩
          · rw [not_or] at h2
            exact ⟨Or.inr h1, h2.2⟩
        · rintro ⟨rfl | h1, h2⟩
          · exact Or.inl rfl
          · by_cases hax : a = x
            · exact Or.inl hax
            · exact Or.inr ⟨h1, by simp [List.mem_cons, hax, h2]⟩

theorem jsSetDedup_mem {α : Type} [DecidableEq α] (l : List α) (a : α) :
    a ∈ jsSetDedup l ↔ a ∈ l := by
  simp [jsSetDedup, jsSetDedupAux_mem]

theorem jsSetDedupAux_nodup {α : Type} [DecidableEq α] (seen l : List α) :
    (jsSetDedupAux seen l).Nodup := by
  induction l generalizing seen with
  | nil => simp [jsSetDedupAux]
  | cons x xs ih =>
      by_cases hx : x ∈ seen
      · simpa only [jsSetDedupAux, if_pos hx] using ih seen
      · simp only [jsSetDedupAux, if_neg hx]
        refine List.nodup_cons.mpr ⟨?_, ih _⟩
        rw [jsSetDedupAux_mem]
        rintro ⟨-, h2⟩
        exact h2 (List.mem_cons_self x seen)

theorem jsSetDedup_nodup {α : Type} [DecidableEq α] (l : List α) :
    (jsSetDedup l).Nodup := jsSetDedupAux_nodup [] l

theorem jsSetDedupAux_firstSeen {α : Type} [DecidableEq α] (l : List α) :
    ∀ seen, (jsSetDedupAux seen l).Pairwise
      (fun a b => l.indexOf a < l.indexOf b) := by
  induction l with
  | nil => intro seen; simp [jsSetDedupAux]
  | cons x xs ih =>
      intro seen
      by_cases hx : x ∈ seen
      · simp only [jsSetDedupAux, if_pos hx]
        refine (ih seen).imp_of_mem ?_
        intro a b ha hb hab
        have hax : a ≠ x := fun he =>
          ((jsSetDedupAux_mem seen xs a).mp ha).2 (he ▸ hx)
        have hbx : b ≠ x := fun he =>
          ((jsSetDedupAux_mem seen xs b).mp hb).2 (he ▸ hx)
        rw [List.indexOf_cons_ne _ (Ne.symm hax),
          List.indexOf_cons_ne _ (Ne.symm hbx)]
        exact Nat.succ_lt_succ hab
      · simp only [jsSetDedupAux, if_neg hx]
        refine List.pairwise_cons.mpr ⟨?_, ?_⟩
        · intro b hb
          have hbx : b ≠ x := fun he =>
            ((jsSetDedupAux_mem _ xs b).mp hb).2
              (he ▸ List.mem_cons_self x seen)
          rw [List.indexOf_cons_self, List.indexOf_cons_ne _ (Ne.symm hbx)]
          exact Nat.succ_pos _
        · refine (ih (x :: seen)).imp_of_mem ?_
          intro a b ha hb hab
          have hax : a ≠ x := fun he =>
            ((jsSetDedupAux_mem _ xs a).mp ha).2
              (he ▸ List.mem_cons_self x seen)
          have hbx : b ≠ x := fun he =>
            ((jsSetDedupAux_mem _ xs b).mp hb).2
              (he ▸ List.mem_cons_self x seen)
          rw [List.indexOf_cons_ne _ (Ne.symm hax),
            List.indexOf_cons_ne _ (Ne.symm hbx)]
          exact Nat.succ_lt_succ hab

theorem keys_of_filterMap_lookup {β γ : Type} (ds : List String)
    (h : String → Option γ) (f : String → γ → β) :
    ((ds.filterMap (fun d => (h d).map (fun r => (d, f d r)))).map
      Prod.fst).Sublist ds := by
  induction ds with
  | nil => simp
  | cons d ds ih =>
      cases hfind : h d with
      | none =>
          simp only [List.filterMap_cons, hfind, Option.map_none']
          exact ih.cons d
      | some r =>
          simp only [List.filterMap_cons, hfind, Option.map_some',
            List.map_cons]
          exact ih.cons₂ d

/-- C9 (confirmed): DataLoader.pivotData produces a strictly increasing
(sorted, duplicate-free) dates list; a symbols list of distinct identifiers
whose order is the order of first occurrence in the records; and per-symbol
tables whose date keys are duplicate-free, so every (entity, date) pair has
at most one entry. -/
theorem pivotData_invariants (data : List StockRow) :
    (pivotDates data).Pairwise (fun a b => a < b) ∧
    (pivotSymbols data).Nodup ∧
    (pivotSymbols data).Pairwise (fun a b =>
      (data.map (fun r => r.Symbol)).indexOf a
        < (data.map (fun r => r.Symbol)).indexOf b) ∧
    (∀ e ∈ pivotData data, (e.2.map Prod.fst).Nodup) := by
  have hdn : (pivotDates data).Nodup := by
    unfold pivotDates
    exact (List.perm_insertionSort jsStrLeR _).symm.nodup
      (jsSetDedup_nodup (data.map (fun r => r.Date)))
  refine ⟨?_, jsSetDedup_nodup _, jsSetDedupAux_firstSeen _ [], ?_⟩
  · have hsorted : (pivotDates data).Pairwise jsStrLeR :=
      List.sorted_insertionSort jsStrLeR _
    exact (hsorted.and hdn).imp (fun hab => lt_of_le_of_ne hab.1 hab.2)
  · intro e he
    simp only [pivotData, List.mem_map] at he
    obtain ⟨s, _, rfl⟩ := he
    exact
      (keys_of_filterMap_lookup (pivotDates data)
        (fun d => data.find? (fun r => r.Date == d && r.Symbol == s))
        (fun _ r => (⟨r.Open, r.Close⟩ : Bar))).nodup hdn

theorem pivotData_invariants_witness :
    (pivotDates [⟨"d", "A", num 1, num 1⟩, ⟨"d", "B", num 2, num 2⟩]).Pairwise
      (fun a b => a < b) ∧
    (pivotSymbols [⟨"d", "A", num 1, num 1⟩, ⟨"d", "B", num 2, num 2⟩]).Nodup ∧
    (pivotSymbols [⟨"d", "A", num 1, num 1⟩, ⟨"d", "B", num 2, num 2⟩]).Pairwise
      (fun a b =>
        (([⟨"d", "A", num 1, num 1⟩,
           ⟨"d", "B", num 2, num 2⟩] : List StockRow).map
            (fun r => r.Symbol)).indexOf a
          < (([⟨"d", "A", num 1, num 1⟩,
              ⟨"d", "B", num 2, num 2⟩] : List StockRow).map
                (fun r => r.Symbol)).indexOf b) ∧
    ((([("d", (⟨num 1, num 1⟩ : Bar))]).map Prod.fst).Nodup) :=
  have h := pivotData_invariants
    [⟨"d", "A", num 1, num 1⟩, ⟨"d", "B", num 2, num 2⟩]
  ⟨h.1, h.2.1, h.2.2.1,
    h.2.2.2 ("A", [("d", ⟨num 1, num 1⟩)]) (by decide)⟩

theorem jsMinList_nan_of_mem (l : List JSNum) (h : JSNum.nan ∈ l) :
    jsMinList l = .nan := by
  induction l with
  | nil => simp at h
  | cons c t ih =>
      rcases List.mem_cons.mp h with rfl | hm
      · show jsMin2 .nan (jsMinList t) = .nan
        cases jsMinList t <;> rfl
      · show jsMin2 c (jsMinList t) = .nan
        rw [ih hm]
        cases c <;> rfl

theorem jsMaxList_nan_of_mem (l : List JSNum) (h : JSNum.nan ∈ l) :
    jsMaxList l = .nan := by
  induction l with
  | nil => simp at h
  | cons c t ih =>
      rcases List.mem_cons.mp h with rfl | hm
      · show jsMax2 .nan (jsMaxList t) = .nan
        cases jsMaxList t <;> rfl
      · show jsMax2 c (jsMaxList t) = .nan
        rw [ih hm]
        cases c <;> rfl

theorem jsMinList_ninf_of_mem (l : List JSNum) (h : JSNum.ninf ∈ l) :
    jsMinList l = .nan ∨ jsMinList l = .ninf := by
  induction l with
  | nil => simp at h
  | cons c t ih =>
      rcases List.mem_cons.mp h with rfl | hm
      · show jsMin2 .ninf (jsMinList t) = .nan ∨
            jsMin2 .ninf (jsMinList t) = .ninf
        cases jsMinList t
        · exact Or.inr rfl
        · exact Or.inl rfl
        · exact Or.inr rfl
        · exact Or.inr rfl
      · show jsMin2 c (jsMinList t) = .nan ∨ jsMin2 c (jsMinList t) = .ninf
        rcases ih hm with h1 | h1 <;> rw [h1] <;> cases c <;> simp [jsMin2]

theorem jsMaxList_inf_of_mem (l : List JSNum) (h : JSNum.inf ∈ l) :
    jsMaxList l = .nan ∨ jsMaxList l = .inf := by
  induction l with
  | nil => simp at h
  | cons c t ih =>
      rcases List.mem_cons.mp h with rfl | hm
      · show jsMax2 .inf (jsMaxList t) = .nan ∨
            jsMax2 .inf (jsMaxList t) = .inf
        cases jsMaxList t
        · exact Or.inr rfl
        · exact Or.inl rfl
        · exact Or.inr rfl
        · exact Or.inr rfl
      · show jsMax2 c (jsMaxList t) = .nan ∨ jsMax2 c (jsMaxList t) = .inf
        rcases ih hm with h1 | h1 <;> rw [h1] <;> cases c <;> simp [jsMax2]

theorem all_num_of_minmax (l : List JSNum) (a b : ℚ)
    (hmin : jsMinList l = num b) (hmax : jsMaxList l = num a) :
    ∀ c ∈ l, ∃ q : ℚ, c = num q := by
  intro c hc
  cases c with
  | num q => exact ⟨q, rfl⟩
  | nan =>
      rw [jsMinList_nan_of_mem l hc] at hmin
      exact absurd hmin (by simp)
  | inf =>
      rcases jsMaxList_inf_of_mem l hc with h | h <;>
        rw [h] at hmax <;> exact absurd hmax (by simp)
  | ninf =>
      rcases jsMinList_ninf_of_mem l hc with h | h <;>
        rw [h] at hmin <;> exact absurd hmin (by simp)

/-- C10 (confirmed): for an entity whose Close min/max statistics are finite
with max > min, the min-max normalization formula of
DataLoader.normalizeData is strictly monotone on that entity's Close values,
and consequently the increase/decrease label bit computed by
DataLoader.prepareSamples from two normalized Close values (both present)
equals the bit computed from the raw Close values. -/
theorem minMaxNormalize_monotone (closes : List JSNum) (c1 c2 : JSNum)
    (a b : ℚ) (hmin : jsMinList closes = num b)
    (hmax : jsMaxList closes = num a) (hab : b < a)
    (h1 : c1 ∈ closes) (h2 : c2 ∈ closes) :
    jsGt (minMaxNormalize (jsMinList closes) (jsMaxList closes) c1)
        (minMaxNormalize (jsMinList closes) (jsMaxList closes) c2)
      = jsGt c1 c2 ∧
    labelBit (minMaxNormalize (jsMinList closes) (jsMaxList closes) c1)
        (minMaxNormalize (jsMinList closes) (jsMaxList closes) c2)
      = labelBit c1 c2 := by
  obtain ⟨q1, rfl⟩ := all_num_of_minmax closes a b hmin hmax c1 h1
  obtain ⟨q2, rfl⟩ := all_num_of_minmax closes a b hmin hmax c2 h2
  rw [hmin, hmax]
  have hd : a - b ≠ 0 := sub_ne_zero.mpr (ne_of_gt hab)
  have key : ∀ q : ℚ,
      minMaxNormalize (num b) (num a) (num q) = num ((q - b) / (a - b)) := by
    intro q
    simp [minMaxNormalize, jsSub, jsDiv, hd]
  rw [key, key]
  have hpos : (0 : ℚ) < a - b := by linarith
  have hiff : ((q2 - b) / (a - b) < (q1 - b) / (a - b)) ↔ (q2 < q1) := by
    rw [div_lt_div_iff_of_pos_right hpos, sub_lt_sub_iff_right]
  have hGt : jsGt (num ((q1 - b) / (a - b))) (num ((q2 - b) / (a - b)))
      = jsGt (num q1) (num q2) := by
    show decide ((q2 - b) / (a - b) < (q1 - b) / (a - b)) = decide (q2 < q1)
    exact decide_eq_decide.mpr hiff
  exact ⟨hGt, by rw [labelBit, labelBit, hGt]⟩

theorem minMaxNormalize_monotone_witness :
    jsGt (minMaxNormalize (jsMinList [num 1, num 3]) (jsMaxList [num 1, num 3])
          (num 3))
        (minMaxNormalize (jsMinList [num 1, num 3]) (jsMaxList [num 1, num 3])
          (num 1))
      = jsGt (num 3) (num 1) ∧
    labelBit (minMaxNormalize (jsMinList [num 1, num 3])
          (jsMaxList [num 1, num 3]) (num 3))
        (minMaxNormalize (jsMinList [num 1, num 3])
          (jsMaxList [num 1, num 3]) (num 1))
      = labelBit (num 3) (num 1) :=
  minMaxNormalize_monotone [num 1, num 3] (num 3) (num 1) 3 1
    (by decide) (by decide) (by decide) (by decide) (by decide)

theorem splitCharsAux_no_sep (sep : Char) (p : List Char) :
    ∀ (cs acc : List Char), sep ∉ p →
      splitCharsAux sep (p ++ cs) acc
        = splitCharsAux sep cs (p.reverse ++ acc) := by
  induction p with
  | nil => intro cs acc _; simp
  | cons c p ih =>
      intro cs acc hp
      have hc : c ≠ sep := fun h => hp (by simp [h])
      have hp' : sep ∉ p := fun h => hp (by simp [h])
      have hstep : splitCharsAux sep ((c :: p) ++ cs) acc
          = splitCharsAux sep (p ++ cs) (c :: acc) := by
        show splitCharsAux sep (c :: (p ++ cs)) acc
          = splitCharsAux sep (p ++ cs) (c :: acc)
        simp only [splitCharsAux, if_neg hc]
      rw [hstep, ih cs (c :: acc) hp']
      simp [List.reverse_cons, List.append_assoc]

theorem split_joinChars (sep : Char) (pieces : List (List Char))
    (hne : pieces ≠ []) (hp : ∀ p ∈ pieces, sep ∉ p) :
    splitCharsAux sep (joinChars sep pieces) [] = pieces := by
  induction pieces with
  | nil => exact absurd rfl hne
  | cons p ps ih =>
      cases ps with
      | nil =>
          show splitCharsAux sep p [] = [p]
          have h := splitCharsAux_no_sep sep p [] [] (hp p (by simp))
          rw [List.append_nil] at h
          rw [h]
          simp [splitCharsAux]
      | cons q qs =>
          show splitCharsAux sep (p ++ sep :: joinChars sep (q :: qs)) []
            = p :: q :: qs
          rw [splitCharsAux_no_sep sep p _ [] (hp p (by simp))]
          have hstep : splitCharsAux sep (sep :: joinChars sep (q :: qs))
              (p.reverse ++ []) = (p.reverse ++ []).reverse ::
                splitCharsAux sep (joinChars sep (q :: qs)) [] := by
            simp [splitCharsAux]
          rw [hstep, ih (by simp) (fun r hr => hp r (by simp [hr]))]
          simp

theorem mem_joinChars (sep c : Char) (pieces : List (List Char))
    (h : c ∈ joinChars sep pieces) : c = sep ∨ ∃ p ∈ pieces, c ∈ p := by
  induction pieces with
  | nil => simp [joinChars] at h
  | cons p ps ih =>
      cases ps with
      | nil =>
          exact Or.inr ⟨p, by simp, h⟩
      | cons q qs =>
          rw [show joinChars sep (p :: q :: qs)
              = p ++ sep :: joinChars sep (q :: qs) from rfl,
            List.mem_append] at h
          rcases h with h | h
          · exact Or.inr ⟨p, by simp, h⟩
          · rcases List.mem_cons.mp h with rfl | h2
            · exact Or.inl rfl
            · rcases ih h2 with h3 | ⟨r, hr, hcr⟩
              · exact Or.inl h3
              · exact Or.inr ⟨r, by simp [hr], hcr⟩

theorem jsSplit_joinChars (sep : Char) (pieces : List (List Char))
    (hne : pieces ≠ []) (hp : ∀ p ∈ pieces, sep ∉ p) :
    jsSplit (String.mk (joinChars sep pieces)) sep = pieces.map String.mk := by
  unfold jsSplit
  rw [show (String.mk (joinChars sep pieces)).data
      = joinChars sep pieces from rfl,
    split_joinChars sep pieces hne hp]

theorem csvLines_single (s : String) (hnl : '\n' ∉ s.data)
    (hnb : isBlankLine s = false) : csvLines s = [s] := by
  unfold csvLines
  have hsplit : jsSplit s '\n' = [s] := by
    unfold jsSplit
    have h := splitCharsAux_no_sep '\n' s.data [] [] hnl
    rw [List.append_nil] at h
    rw [h]
    simp [splitCharsAux]
  rw [hsplit]
  simp [hnb]

theorem mem_joinChars_head (sep : Char) (p : List Char)
    (ps : List (List Char)) (c : Char) (hc : c ∈ p) :
    c ∈ joinChars sep (p :: ps) := by
  cases ps with
  | nil => exact hc
  | cons q qs =>
      show c ∈ p ++ sep :: joinChars sep (q :: qs)
      exact List.mem_append.mpr (Or.inl hc)

set_option maxRecDepth 4000 in
/-- C5 (counterexample): a single line of exactly 785 comma-separated fields
whose every field is the non-numeric string "x" is kept by
MNISTDataLoader.loadCSVFile (the keep test looks only at the field count), so
for this input the claim's N (count of well-formed rows, which is 0) is not
the number of returned records (1), and no EmptyDatasetError is raised even
though zero claim-well-formed rows exist. -/
theorem loadCSVFile_keeps_nonnumeric_row :
    loadCSVFile (String.mk (joinChars ',' (List.replicate 785 ['x'])))
        = Except.ok [("x", List.replicate 784 "x")] ∧
    specWellFormedRow (String.mk (joinChars ',' (List.replicate 785 ['x'])))
        = false := by
  have hp : ∀ p ∈ List.replicate 785 ['x'], ',' ∉ p := by
    intro p hmem
    rw [List.eq_of_mem_replicate hmem]
    decide
  have hsplit : jsSplit (String.mk (joinChars ',' (List.replicate 785 ['x'])))
      ',' = List.replicate 785 "x" := by
    rw [jsSplit_joinChars ',' _ (by simp) hp, List.map_replicate]
  have hnl : '\n' ∉ (String.mk (joinChars ','
      (List.replicate 785 ['x']))).data := by
    show '\n' ∉ joinChars ',' (List.replicate 785 ['x'])
    intro h
    rcases mem_joinChars ',' '\n' _ h with h1 | ⟨p, hmem, hcp⟩
    · exact absurd h1 (by decide)
    · rw [List.eq_of_mem_replicate hmem] at hcp
      exact absurd hcp (by decide)
  have hnb : isBlankLine (String.mk (joinChars ','
      (List.replicate 785 ['x']))) = false := by
    have hx : 'x' ∈ joinChars ',' (List.replicate 785 ['x']) := by
      rw [show (785 : ℕ) = 784 + 1 from rfl, List.replicate_succ]
      exact mem_joinChars_head ',' _ _ 'x' (by decide)
    rw [Bool.eq_false_iff]
    intro hall
    rw [isBlankLine, List.all_eq_true] at hall
    exact absurd (hall 'x' hx) (by decide)
  constructor
  · have h785 : List.replicate 785 "x" = "x" :: List.replicate 784 "x" := rfl
    have hrec : (csvLines (String.mk (joinChars ','
        (List.replicate 785 ['x'])))).filterMap
        (fun line =>
          let values := jsSplit line ','
          if values.length = 785 then some (values.headD "", values.drop 1)
          else none)
        = [("x", List.replicate 784 "x")] := by
      rw [csvLines_single _ hnl hnb]
      simp only [List.filterMap_cons, List.filterMap_nil, hsplit, h785]
      rw [show ("x" :: List.replicate 784 "x").length = 785 from by simp]
      simp
    simp only [loadCSVFile]
    rw [hrec]
    rfl
  · unfold specWellFormedRow
    rw [hsplit]
    rw [show (785 : ℕ) = 784 + 1 from rfl, List.replicate_succ]
    simp only [List.all_cons]
    rw [show isNumericField "x" = false from by decide]
    simp

/-- C5 (amended): MNISTDataLoader.loadCSVFile keeps exactly the non-blank
lines that split into exactly 785 comma-separated fields, as (label, pixels)
records in original order (a filtered, order-preserving selection of the
input lines), regardless of whether the fields parse as numbers; blank lines
are ignored; it fails with the EmptyDatasetError message exactly when no line
passes the field-count test. -/
theorem loadCSVFile_fieldcount_policy (content : String) :
    (loadCSVFile content = Except.error "No valid data found in file"
        ↔ (csvLines content).filter keepRow = []) ∧
    ((csvLines content).filter keepRow ≠ [] →
      loadCSVFile content = Except.ok
        (((csvLines content).filter keepRow).map (fun line =>
          ((jsSplit line ',').headD "", (jsSplit line ',').drop 1)))) := by
  have hrec : (csvLines content).filterMap
      (fun line =>
        let values := jsSplit line ','
        if values.length = 785 then some (values.headD "", values.drop 1)
        else none)
      = ((csvLines content).filter keepRow).map (fun line =>
          ((jsSplit line ',').headD "", (jsSplit line ',').drop 1)) := by
    generalize csvLines content = l
    induction l with
    | nil => rfl
    | cons x xs ih =>
        by_cases hx : (jsSplit x ',').length = 785
        · have hk : keepRow x = true := by
            simp [keepRow, hx]
          simp only [List.filterMap_cons, List.filter_cons, hk, if_pos hx,
            if_true, List.map_cons, ih]
        · have hk : keepRow x = false := by
            simp [keepRow, hx]
          simp only [List.filterMap_cons, List.filter_cons, hk, if_neg hx,
            Bool.false_eq_true, if_false, ih]
  have hload : loadCSVFile content =
      if (((csvLines content).filter keepRow).map (fun line =>
          ((jsSplit line ',').headD "", (jsSplit line ',').drop 1))).length = 0
      then Except.error "No valid data found in file"
      else Except.ok (((csvLines content).filter keepRow).map (fun line =>
          ((jsSplit line ',').headD "", (jsSplit line ',').drop 1))) := by
    simp only [loadCSVFile]
    rw [hrec]
  constructor
  · constructor
    · intro he
      by_contra hne
      have hlen : (((csvLines content).filter keepRow).map (fun line =>
          ((jsSplit line ',').headD "", (jsSplit line ',').drop 1))).length
          ≠ 0 := by
        simp only [List.length_map]
        intro h0
        exact hne (List.eq_nil_of_length_eq_zero h0)
      rw [hload, if_neg hlen] at he
      exact Except.noConfusion he
    · intro hnil
      rw [hload, hnil]
      simp
  · intro hne
    have hlen : (((csvLines content).filter keepRow).map (fun line =>
        ((jsSplit line ',').headD "", (jsSplit line ',').drop 1))).length
        ≠ 0 := by
      simp only [List.length_map]
      intro h0
      exact hne (List.eq_nil_of_length_eq_zero h0)
    rw [hload, if_neg hlen]

set_option maxRecDepth 4000 in
theorem loadCSVFile_fieldcount_policy_witness :
    (csvLines (String.mk (joinChars ','
        (['3'] :: List.replicate 784 ['0'])))).filter keepRow ≠ [] ∧
    loadCSVFile (String.mk (joinChars ',' (['3'] :: List.replicate 784 ['0'])))
      = Except.ok (((csvLines (String.mk (joinChars ','
          (['3'] :: List.replicate 784 ['0'])))).filter keepRow).map
        (fun line =>
          ((jsSplit line ',').headD "", (jsSplit line ',').drop 1))) := by
  have hp : ∀ p ∈ ['3'] :: List.replicate 784 ['0'], ',' ∉ p := by
    intro p hmem
    rcases List.mem_cons.mp hmem with rfl | hmem2
    · decide
    · rw [List.eq_of_mem_replicate hmem2]
      decide
  have hsplit : jsSplit (String.mk (joinChars ','
      (['3'] :: List.replicate 784 ['0']))) ','
      = "3" :: List.replicate 784 "0" := by
    rw [jsSplit_joinChars ',' _ (by simp) hp]
    simp [List.map_replicate]
  have hnl : '\n' ∉ (String.mk (joinChars ','
      (['3'] :: List.replicate 784 ['0']))).data := by
    show '\n' ∉ joinChars ',' (['3'] :: List.replicate 784 ['0'])
    intro h
    rcases mem_joinChars ',' '\n' _ h with h1 | ⟨p, hmem, hcp⟩
    · exact absurd h1 (by decide)
    · rcases List.mem_cons.mp hmem with rfl | hmem2
      · exact absurd hcp (by decide)
      · rw [List.eq_of_mem_replicate hmem2] at hcp
        exact absurd hcp (by decide)
  have hnb : isBlankLine (String.mk (joinChars ','
      (['3'] :: List.replicate 784 ['0']))) = false := by
    have hx : '3' ∈ joinChars ',' (['3'] :: List.replicate 784 ['0']) :=
      mem_joinChars_head ',' _ _ '3' (by decide)
    rw [Bool.eq_false_iff]
    intro hall
    rw [isBlankLine, List.all_eq_true] at hall
    exact absurd (hall '3' hx) (by decide)
  have hkeep : keepRow (String.mk (joinChars ','
      (['3'] :: List.replicate 784 ['0']))) = true := by
    rw [keepRow, hsplit]
    simp
  have hne : (csvLines (String.mk (joinChars ','
      (['3'] :: List.replicate 784 ['0'])))).filter keepRow ≠ [] := by
    rw [csvLines_single _ hnl hnb]
    simp only [List.filter_cons, hkeep, eq_self_iff_true, if_true,
      List.filter_nil]
    exact List.cons_ne_nil _ _
  exact ⟨hne, (loadCSVFile_fieldcount_policy _).2 hne⟩

theorem take_getD {α : Type} (l : List α) (k i : ℕ) (d : α)
    (h : i < (l.take k).length) : (l.take k).getD i d = l.getD i d := by
  simp only [List.length_take] at h
  rw [List.getD_eq_getElem?_getD, List.getD_eq_getElem?_getD,
    List.getElem?_take, if_pos (by omega : i < k)]

theorem jsSliceTo_getD {α : Type} (l : List α) (e : ℤ) (i : ℕ) (d : α)
    (h : i < (jsSliceTo l e).length) : (jsSliceTo l e).getD i d = l.getD i d := by
  unfold jsSliceTo at h ⊢
  exact take_getD l _ i d h

theorem flatMap_getD_uniform {α β : Type} (f : α → List β) (S : ℕ) (d : β) :
    ∀ (l : List α) (n k : ℕ) (a : α), (∀ x ∈ l, (f x).length = S) →
      l[n]? = some a → k < S →
      (l.flatMap f).getD (n * S + k) d = (f a).getD k d := by
  intro l
  induction l with
  | nil =>
      intro n k a _ ha _
      simp at ha
  | cons x xs ih =>
      intro n k a hS ha hk
      cases n with
      | zero =>
          rw [List.getElem?_cons_zero] at ha
          obtain rfl : x = a := Option.some.inj ha
          show (f x ++ xs.flatMap f).getD (0 * S + k) d = (f x).getD k d
          have hxlen : (f x).length = S := hS x (by simp)
          rw [Nat.zero_mul, Nat.zero_add, List.getD_eq_getElem?_getD,
            List.getElem?_append, if_pos (by omega),
            ← List.getD_eq_getElem?_getD]
      | succ n =>
          rw [List.getElem?_cons_succ] at ha
          show (f x ++ xs.flatMap f).getD ((n + 1) * S + k) d = (f a).getD k d
          have hxlen : (f x).length = S := hS x (by simp)
          have hidx : (n + 1) * S + k = (f x).length + (n * S + k) := by
            rw [hxlen]
            ring
          rw [hidx, List.getD_eq_getElem?_getD,
            List.getElem?_append_right (by omega)]
          have hsub : (f x).length + (n * S + k) - (f x).length
              = n * S + k := by omega
          rw [hsub, ← List.getD_eq_getElem?_getD]
          exact ih n k a (fun y hy => hS y (by simp [hy])) ha hk

unseal Rat.add Rat.sub Rat.mul Rat.inv in
/-- C1 (counterexample): with symbols A, B, dates a, b, c, T = 1, H = 1, and
a normalized series in which A is missing at the anchor date b but present at
the future date c with normalized Close 1, the Window & Label Builder emits
label 1 for A (because the missing anchor Close is treated as the number 0
and 1 > 0), although the claim demands label 0 whenever either value is
missing. -/
theorem prepareSamples_missing_anchor_label_one :
    (prepareSamples
        [("A", [("a", ⟨num 0, num 0⟩), ("c", ⟨num 1, num 1⟩)]),
         ("B", [("a", ⟨num 0, num 0⟩), ("b", ⟨num (1/2), num (1/2)⟩),
                ("c", ⟨num 1, num 1⟩)])]
        ["A", "B"] ["a", "b", "c"] 1 1).2 = [[1, 1]] ∧
    lookup2
        [("A", [("a", ⟨num 0, num 0⟩), ("c", ⟨num 1, num 1⟩)]),
         ("B", [("a", ⟨num 0, num 0⟩), ("b", ⟨num (1/2), num (1/2)⟩),
                ("c", ⟨num 1, num 1⟩)])]
        "A" "b" = none := by
  constructor
  · decide
  · decide

/-- C1 (amended): at every in-range position of a target vector (sample s,
horizon offset, symbol index k, with the future index in range of the dates
list), the label DataLoader.prepareSamples emits equals labelAt: 0 when the
symbol is missing at the future date; the strict comparison of the future
normalized Close against the anchor normalized Close when both are present;
and, when the anchor is missing but the future is present, the comparison of
the future normalized Close against the number 0 — not the constant 0 the
original claim requires. -/
theorem prepareSamples_label_formula
    (nd : List (String × List (String × Bar)))
    (symbols dates : List String) (T H s offset k : ℕ)
    (hnd : dates.Nodup)
    (hs : s < (jsSliceTo dates ((dates.length : ℤ) - H)).length - T)
    (ho1 : 1 ≤ offset) (hoH : offset ≤ H) (hk : k < symbols.length)
    (hfut : T + s + offset < dates.length) :
    ((prepareSamples nd symbols dates T H).2.getD s []).getD
        ((offset - 1) * symbols.length + k) 0
      = labelAt nd (symbols.getD k "") (dates.getD (T + s) "")
          (dates.getD (T + s + offset) "") ∧
    (lookup2 nd (symbols.getD k "") (dates.getD (T + s + offset) "") = none →
      labelAt nd (symbols.getD k "") (dates.getD (T + s) "")
          (dates.getD (T + s + offset) "") = 0) ∧
    (∀ fb ab,
      lookup2 nd (symbols.getD k "") (dates.getD (T + s + offset) "")
          = some fb →
      lookup2 nd (symbols.getD k "") (dates.getD (T + s) "") = some ab →
      labelAt nd (symbols.getD k "") (dates.getD (T + s) "")
          (dates.getD (T + s + offset) "") = labelBit fb.Close ab.Close) ∧
    (∀ fb,
      lookup2 nd (symbols.getD k "") (dates.getD (T + s + offset) "")
          = some fb →
      lookup2 nd (symbols.getD k "") (dates.getD (T + s) "") = none →
      labelAt nd (symbols.getD k "") (dates.getD (T + s) "")
          (dates.getD (T + s + offset) "") = labelBit fb.Close (num 0)) := by
  have hFlen : T + s < (jsSliceTo dates ((dates.length : ℤ) - H)).length := by
    omega
  have hDlen : T + s < dates.length := by omega
  refine ⟨?_, ?_, ?_, ?_⟩
  · -- the positional equation
    have h2 : (prepareSamples nd symbols dates T H).2
        = (List.range' T
            ((jsSliceTo dates ((dates.length : ℤ) - H)).length - T)).map
            (fun i => targetVector nd symbols dates
              ((jsSliceTo dates ((dates.length : ℤ) - H)).getD i "") H) := by
      simp only [prepareSamples]
    have htv : (prepareSamples nd symbols dates T H).2.getD s []
        = targetVector nd symbols dates (dates.getD (T + s) "") H := by
      rw [h2, List.getD_eq_getElem?_getD, List.getElem?_map,
        List.getElem?_range' T 1 hs]
      simp only [Option.map_some', Option.getD_some, Nat.one_mul]
      rw [jsSliceTo_getD dates _ (T + s) "" hFlen]
    have hgd : dates.getD (T + s) "" = dates[T + s] := by
      rw [List.getD_eq_getElem?_getD, List.getElem?_eq_getElem hDlen,
        Option.getD_some]
    have hcur_mem : dates.getD (T + s) "" ∈ dates := by
      rw [hgd]
      exact List.getElem_mem hDlen
    have hidxOf : jsIndexOf dates (dates.getD (T + s) "")
        = (T : ℤ) + (s : ℤ) := by
      unfold jsIndexOf
      rw [if_pos hcur_mem, hgd]
      norm_cast
      exact List.indexOf_getElem hnd (T + s) hDlen
    have htveq : targetVector nd symbols dates (dates.getD (T + s) "") H
        = (List.range' 1 H).flatMap (fun o =>
            if (T : ℤ) + (s : ℤ) + (o : ℤ) < (dates.length : ℤ) then
              symbols.map (fun sym =>
                match lookup2 nd sym
                    (dates.getD ((T : ℤ) + (s : ℤ) + (o : ℤ)).toNat "") with
                | some bar => labelBit bar.Close
                    (currentCloseOf nd (dates.getD (T + s) "") sym)
                | none => 0)
            else symbols.map (fun _ => 0)) := by
      simp only [targetVector, hidxOf]
    have hS : ∀ (o : ℕ), o ∈ List.range' 1 H →
        (if (T : ℤ) + (s : ℤ) + (o : ℤ) < (dates.length : ℤ) then
          symbols.map (fun sym =>
            match lookup2 nd sym
                (dates.getD ((T : ℤ) + (s : ℤ) + (o : ℤ)).toNat "") with
            | some bar => labelBit bar.Close
                (currentCloseOf nd (dates.getD (T + s) "") sym)
            | none => 0)
        else symbols.map (fun _ => 0)).length = symbols.length := by
      intro o _
      by_cases hc : (T : ℤ) + (s : ℤ) + (o : ℤ) < (dates.length : ℤ)
      · rw [if_pos hc, List.length_map]
      · rw [if_neg hc, List.length_map]
    have ha : (List.range' 1 H)[offset - 1]? = some offset := by
      rw [List.getElem?_range' 1 1 (by omega : offset - 1 < H)]
      congr 1
      omega
    rw [htv, htveq,
      flatMap_getD_uniform _ symbols.length 0 (List.range' 1 H)
        (offset - 1) k offset hS ha hk]
    have hcond : (T : ℤ) + (s : ℤ) + ((offset : ℕ) : ℤ)
        < ((dates.length : ℕ) : ℤ) := by omega
    rw [if_pos hcond]
    have htoNat : ((T : ℤ) + (s : ℤ) + ((offset : ℕ) : ℤ)).toNat
        = T + s + offset := by omega
    rw [htoNat, List.getD_eq_getElem?_getD, List.getElem?_map,
      List.getElem?_eq_getElem hk, Option.map_some', Option.getD_some]
    have hsymk : symbols.getD k "" = symbols[k] := by
      rw [List.getD_eq_getElem?_getD, List.getElem?_eq_getElem hk,
        Option.getD_some]
    rw [← hsymk]
    rfl
  · intro h0
    unfold labelAt
    rw [h0]
  · intro fb ab hf ha2
    unfold labelAt
    rw [hf]
    unfold currentCloseOf
    rw [ha2]
  · intro fb hf ha2
    unfold labelAt
    rw [hf]
    unfold currentCloseOf
    rw [ha2]

unseal Rat.add Rat.sub Rat.mul Rat.inv in
theorem prepareSamples_label_formula_witness :
    ((prepareSamples
        [("A", [("a", ⟨num 0, num 0⟩), ("c", ⟨num 1, num 1⟩)]),
         ("B", [("a", ⟨num 0, num 0⟩), ("b", ⟨num (1/2), num (1/2)⟩),
                ("c", ⟨num 1, num 1⟩)])]
        ["A", "B"] ["a", "b", "c"] 1 1).2.getD 0 []).getD 0 0
      = labelAt
          [("A", [("a", ⟨num 0, num 0⟩), ("c", ⟨num 1, num 1⟩)]),
           ("B", [("a", ⟨num 0, num 0⟩), ("b", ⟨num (1/2), num (1/2)⟩),
                  ("c", ⟨num 1, num 1⟩)])]
          "A" "b" "c" :=
  (prepareSamples_label_formula
      [("A", [("a", ⟨num 0, num 0⟩), ("c", ⟨num 1, num 1⟩)]),
       ("B", [("a", ⟨num 0, num 0⟩), ("b", ⟨num (1/2), num (1/2)⟩),
              ("c", ⟨num 1, num 1⟩)])]
      ["A", "B"] ["a", "b", "c"] 1 1 0 1 0
      (by decide) (by decide) (by decide) (by decide) (by decide)
      (by decide)).1
